import Mathlib

/-!
Verification development for the UHNW knowledge-graph ingestion core:
the canonical entity registry with fuzzy-name deduplication
(`src/Neo4j/load_graph_v_5.py`), the Wikidata family-relation aggregator
and conflict resolver (`src/WikiData/Data/wikidata/process_wd_full_clean_v6.py`
and `src/WikiData/process_wd_full_clean.py`), the crawl-frontier tracker and
the provenance-tagged graph writer.

Python dicts are modelled as association lists with insert-or-overwrite
preserving the original key position (Python 3.7+ dict semantics); Python
sets are modelled as duplicate-free lists (membership is what matters);
`uuid` generation is modelled by a fresh counter (only freshness is used);
floating-point similarity scores are modelled as exact fractions compared
by cross-multiplication.
-/

namespace UHNW

/-- Association-list model of Python `d.get(k)` / `d[k]`: first match wins
(keys are unique in every state built by `dictInsert`). -/
def lookupKV {α β : Type} [DecidableEq α] : List (α × β) → α → Option β
  | [], _ => none
  | (k, v) :: m, q => if k = q then some v else lookupKV m q

/-- Association-list model of Python `d[k] = v`: overwrite in place when the
key is present (Python dicts keep the original insertion position), else
append at the end. -/
def dictInsert {α β : Type} [DecidableEq α] (k : α) (v : β) : List (α × β) → List (α × β)
  | [] => [(k, v)]
  | (k', v') :: m => if k' = k then (k, v) :: m else (k', v') :: dictInsert k v m

/-! ## Name normalization (`slug`, load_graph_v_5.py lines 36-39)

`SLUG_RE = re.compile(r"[^a-z0-9]+")`; `slug` lowercases, replaces every
maximal run of non-`[a-z0-9]` characters by a single `_` and strips
leading/trailing `_`. -/

/-- A character the slug keeps unchanged: `[a-z0-9]` (after lowercasing). -/
def isSlugChar (c : Char) : Bool :=
  (('a' ≤ c && c ≤ 'z') || ('0' ≤ c && c ≤ '9'))

/-- Replace each maximal run of non-slug characters by a single `'_'`. -/
def collapseRuns : List Char → List Char
  | [] => []
  | c :: cs =>
    let rest := collapseRuns cs
    if isSlugChar c then c :: rest
    else
      match rest with
      | '_' :: _ => rest
      | _ => '_' :: rest

/-- Model of `slug` from load_graph_v_5.py: lowercase, collapse non-alphanumeric
runs to `_`, strip `_` at both ends. -/
def slug (txt : String) : String :=
  let cs := collapseRuns (txt.toList.map Char.toLower)
  String.mk (((cs.dropWhile (· = '_')).reverse.dropWhile (· = '_')).reverse)

/-! ## String similarity (rapidfuzz, external dependency of load_graph_v_5.py)

The registry compares slugs with `rapidfuzz.fuzz.token_set_ratio` and
`rapidfuzz.distance.Levenshtein.distance`.  These live in the external
rapidfuzz library; they are modelled here from its documented algorithm.
Slugs never contain whitespace, so both compared strings are single tokens;
on single-token inputs `token_set_ratio` degenerates to: `0` if either
string is empty, `100` if they are equal, else the normalized InDel
similarity `100 * (|a| + |b| - indel(a,b)) / (|a| + |b|)` (`fuzz.ratio`).
Scores are exact fractions standing for rapidfuzz's floats. -/

/-- One row-update step of the InDel (insert/delete only) distance DP.
Processing source char `x` against target chars `bs`; `ps` is the previous
row aligned so its head is `prev[j]`; `left` is the already-computed
`new[j]`.  Produces `new[j+1], ...`. -/
def indelRowGo (x : Char) : List Char → List Nat → Nat → List Nat
  | bj :: bs, pj :: ps, left =>
    let v := if x = bj then pj else 1 + min left (ps.headD (pj + 1))
    v :: indelRowGo x bs ps v
  | _, _, _ => []

/-- Next full DP row for the InDel distance. -/
def indelNextRow (x : Char) (b : List Char) (prev : List Nat) : List Nat :=
  let first := prev.headD 0 + 1
  first :: indelRowGo x b prev first

/-- InDel (longest-common-subsequence) edit distance between two strings:
the distance underlying rapidfuzz `fuzz.ratio`. -/
def indelDist (a b : String) : Nat :=
  let bl := b.toList
  (a.toList.foldl (fun row x => indelNextRow x bl row)
    (List.range (bl.length + 1))).getLastD 0

/-- One row-update step of the Levenshtein distance DP (substitutions cost 1). -/
def levRowGo (x : Char) : List Char → List Nat → Nat → List Nat
  | bj :: bs, pj :: ps, left =>
    let v := if x = bj then pj else 1 + min pj (min left (ps.headD (pj + 1)))
    v :: levRowGo x bs ps v
  | _, _, _ => []

/-- Next full DP row for the Levenshtein distance. -/
def levNextRow (x : Char) (b : List Char) (prev : List Nat) : List Nat :=
  let first := prev.headD 0 + 1
  first :: levRowGo x b prev first

/-- Levenshtein distance: model of rapidfuzz `distance.Levenshtein.distance`. -/
def levDist (a b : String) : Nat :=
  let bl := b.toList
  (a.toList.foldl (fun row x => levNextRow x bl row)
    (List.range (bl.length + 1))).getLastD 0

/-- A similarity score as an exact fraction `num / den` with `den > 0`,
standing for the (finite, exactly representable here) float rapidfuzz
returns.  Comparisons are by cross-multiplication. -/
structure Score where
  num : Nat
  den : Nat
deriving DecidableEq, Repr

/-- `p ≤ q` as fractions: `p.num / p.den ≤ q.num / q.den`. -/
def scoreLe (p q : Score) : Prop := p.num * q.den ≤ q.num * p.den

/-- `p < q` as fractions. -/
def scoreLt (p q : Score) : Prop := p.num * q.den < q.num * p.den

instance (p q : Score) : Decidable (scoreLe p q) := by unfold scoreLe; infer_instance

instance (p q : Score) : Decidable (scoreLt p q) := by unfold scoreLt; infer_instance

/-- Model of rapidfuzz `fuzz.ratio`: normalized InDel similarity scaled to
`0..100`, i.e. `100 * (|a| + |b| - indel(a,b)) / (|a| + |b|)`. -/
def fuzzScore (a b : String) : Score :=
  if a.length + b.length = 0 then ⟨100, 1⟩
  else ⟨100 * (a.length + b.length - indelDist a b), a.length + b.length⟩

/-- Model of rapidfuzz `fuzz.token_set_ratio` restricted to whitespace-free
inputs (every registry key and query is a `slug`, hence a single token):
`0` when either token set is empty, `100` when the token sets coincide,
otherwise the plain `fuzz.ratio` of the two tokens. -/
def tokenSetScore (a b : String) : Score :=
  if a = "" || b = "" then ⟨0, 1⟩
  else if a = b then ⟨100, 1⟩
  else fuzzScore a b

/-- `FUZZ_THRESHOLD = 93` (load_graph_v_5.py line 48). -/
def fuzzThreshold : Score := ⟨93, 1⟩

/-- `LEV_DIST = 2` (load_graph_v_5.py line 49). -/
def levMax : Nat := 2

/-- `token_set_ratio(k, s) >= FUZZ_THRESHOLD` as a boolean. -/
def clearsFuzz (k s : String) : Bool := decide (scoreLe fuzzThreshold (tokenSetScore k s))

/-- `Levenshtein.distance(k, s) <= LEV_DIST` as a boolean. -/
def clearsLev (k s : String) : Bool := levDist k s ≤ levMax

/-- Model of `_fuzzy_find_person` (load_graph_v_5.py lines 53-58): scan the
person-registry keys in iteration (insertion) order and return the first
whose `token_set_ratio` against `s` reaches the threshold. -/
def fuzzyFindPerson (keys : List String) (s : String) : Option String :=
  keys.find? (fun k => clearsFuzz k s)

/-- Model of `_fuzzy_find_company` (load_graph_v_5.py lines 60-65): first key
whose `token_set_ratio` reaches the threshold **or** whose Levenshtein
distance is at most `LEV_DIST`. -/
def fuzzyFindCompany (keys : List String) (s : String) : Option String :=
  keys.find? (fun k => clearsFuzz k s || clearsLev k s)

/-! ## Canonical entity registry (load_graph_v_5.py lines 41-116) -/

/-- A person-registry entry: `{id, canonical, aliases: set[str], qid}`.
The alias set is modelled as a duplicate-free list. -/
structure PersonEntry where
  pid : String
  canonical : String
  aliases : List String
  qid : Option String
deriving DecidableEq, Repr

/-- Registry state: `person_registry` (slug key → entry), `qid_registry`
(qid → slug key) and a fresh-id counter modelling the `uuid` supply (only
freshness of generated ids is ever used). -/
structure RegState where
  personReg : List (String × PersonEntry)
  qidReg : List (String × String)
  fresh : Nat
deriving DecidableEq, Repr

/-- The empty registry. -/
def emptyReg : RegState := ⟨[], [], 0⟩

/-- Python `set.add` on an alias set modelled as a duplicate-free list. -/
def setAdd (x : String) (s : List String) : List String :=
  if x ∈ s then s else s ++ [x]

/-- Python `set.update(extras)`. -/
def setUpdate (s : List String) (extras : List String) : List String :=
  extras.foldl (fun acc x => setAdd x acc) s

/-- The shared tail of `get_or_create_person` (lines 100-103): merge alias
hints, then add the raw name as an alias unless it is already known or is
the canonical name. -/
def absorbMention (rawName : String) (extras : List String) (entry : PersonEntry) :
    PersonEntry :=
  let e1 := { entry with aliases := setUpdate entry.aliases extras }
  if rawName ∉ e1.aliases ∧ rawName ≠ e1.canonical then
    { e1 with aliases := setAdd rawName e1.aliases }
  else e1

/-- Model of `get_or_create_person` (load_graph_v_5.py lines 68-105).
Returns `none` exactly where the Python would raise a `KeyError`
(`person_registry[key]` missing — unreachable from well-formed states). -/
def getOrCreatePerson (rawName : String) (canonical : Option String)
    (extras : List String) (qid : Option String) (st : RegState) :
    Option (String × RegState) :=
  let name := canonical.getD rawName
  let s := slug name
  match qid with
  | some q =>
    match lookupKV st.qidReg q with
    | some key =>
      match lookupKV st.personReg key with
      | none => none
      | some entry =>
        let entry' :=
          if name ∉ entry.aliases ∧ name ≠ entry.canonical then
            { entry with aliases := setAdd name entry.aliases }
          else entry
        some (entry'.pid, { st with personReg := dictInsert key entry' st.personReg })
    | none =>
      let entry : PersonEntry :=
        { pid := q, canonical := name, aliases := setUpdate [] extras, qid := some q }
      some (q, { st with personReg := dictInsert s entry st.personReg,
                         qidReg := dictInsert q s st.qidReg })
  | none =>
    match fuzzyFindPerson (st.personReg.map Prod.fst) s with
    | none =>
      let pid := "person:" ++ toString st.fresh
      let base : PersonEntry := { pid := pid, canonical := name, aliases := [], qid := none }
      let e2 := absorbMention rawName extras base
      some (e2.pid, { st with personReg := dictInsert s e2 st.personReg,
                              fresh := st.fresh + 1 })
    | some key =>
      match lookupKV st.personReg key with
      | none => none
      | some entry =>
        let e2 := absorbMention rawName extras entry
        some (e2.pid, { st with personReg := dictInsert key e2 st.personReg })

/-! ## Provenance-tagged graph writer (load_graph_v_5.py lines 137-197)

The Neo4j store is modelled as dictionaries keyed by the Cypher `MERGE`
uniqueness keys.  `MERGE .. ON CREATE SET .. ON MATCH SET ..` becomes
create-or-update on the association list. -/

/-- Properties of a `HAS_ROLE_AT` edge (`MERGE_ROLE`, lines 137-151).  The
edge key is `(person id, company id, role)`; the Cypher sets no updated
timestamp on role edges. -/
structure RoleRec where
  startDate : Option String
  endDate : Option String
  refType : String
  refFile : String
deriving DecidableEq, Repr

/-- The role-edge store, keyed by `(pid, cid, role)`. -/
abbrev RoleStore : Type := List ((String × String × String) × RoleRec)

/-- Cypher `coalesce(a, b)`: `a` when non-null, else `b`. -/
def coalesce {α : Type} (a b : Option α) : Option α :=
  match a with
  | some x => some x
  | none => b

/-- Model of `write_role` issuing `MERGE_ROLE` (lines 137-151, 183-187):
`ON CREATE` stores the supplied dates and provenance; `ON MATCH` sets
`startDate = coalesce($start, r.startDate)`, `endDate = coalesce($end,
r.endDate)` and always overwrites `reference_type` / `reference_file`. -/
def mergeRole (st : RoleStore) (pid cid role : String)
    (start stop : Option String) (sType sFile : String) : RoleStore :=
  match lookupKV st (pid, cid, role) with
  | none => st ++ [((pid, cid, role), ⟨start, stop, sType, sFile⟩)]
  | some r =>
    dictInsert (pid, cid, role)
      ⟨coalesce start r.startDate, coalesce stop r.endDate, sType, sFile⟩ st

/-- Provenance of a `FAMILY` edge (`MERGE_FAMILY`, lines 153-159); the edge
key is `(source id, destination id, relation)`. -/
structure FamRec where
  refType : String
  refFile : String
deriving DecidableEq, Repr

/-- The family-edge store, keyed by `(src, dst, relation)`. -/
abbrev FamStore : Type := List ((String × String × String) × FamRec)

/-- Model of `write_family` (lines 190-197): skip the write entirely when
source and destination coincide (self-loop guard), else `MERGE` the edge
and set its provenance. -/
def writeFamily (st : FamStore) (sid did rel : String) (sType sFile : String) :
    FamStore :=
  if sid = did then st
  else
    match lookupKV st (sid, did, rel) with
    | none => st ++ [((sid, did, rel), ⟨sType, sFile⟩)]
    | some _ => dictInsert (sid, did, rel) ⟨sType, sFile⟩ st

/-- No stored family edge is a self-loop. -/
def NoSelfLoop (st : FamStore) : Prop :=
  ∀ p ∈ st, p.1.1 ≠ p.1.2.1

/-! ## Wikidata family aggregator, v6 (process_wd_full_clean_v6.py)

Edges accumulated by the v6 script always carry the three fields
`seed`, `rel`, `relType`; they are modelled as a plain triple. -/

/-- A family edge record `{'seed': …, 'rel': …, 'relType': …}`. -/
structure Edge where
  seed : String
  rel : String
  relType : String
deriving DecidableEq, Repr

/-- The key of the v6 `_dedup_edges` dict comprehension. -/
def edgeKey (e : Edge) : String × String × String := (e.seed, e.rel, e.relType)

/-- The edge a key stands for (keys determine whole edges). -/
def keyEdge (k : String × String × String) : Edge := ⟨k.1, k.2.1, k.2.2⟩

/-- One step of the v6 `_dedup_edges` dict comprehension: key the edge by
its triple and insert it (later occurrences overwrite). -/
def v6Step (m : List ((String × String × String) × Edge)) (e : Edge) :
    List ((String × String × String) × Edge) :=
  dictInsert (edgeKey e) e m

/-- v6 `_dedup_edges` (line 48-49):
`list({(e['seed'], e['rel'], e['relType']): e for e in edges}.values())`. -/
def dedupV6 (l : List Edge) : List Edge :=
  (l.foldl v6Step []).map Prod.snd

/-- The relation-column table of v6 (lines 139-147): for each SPARQL column,
the forward (`seed → target`) and reverse (`target → seed`) relation
strings, with the parent-child direction of a `child` column inferred from
the seed's gender. -/
def relMapV6 (gender : Option String) : List (String × String × String) :=
  [("spouse", "is spouse of", "is spouse of"),
   ("father", "is child of", "is father of"),
   ("mother", "is child of", "is mother of"),
   ("child",
    (if gender = some "male" then "is father of"
     else if gender = some "female" then "is mother of"
     else "is parent of"),
    "is child of"),
   ("sibling", "is sibling of", "is sibling of"),
   ("relative", "is relative of", "is relative of")]

/-- The body of the v6 relation loop after target resolution (lines 151-155):
if the target resolved, append the forward and the reverse edge; there is
no self-loop guard in v6. -/
def addRelEdgesV6 (edges : List Edge) (seedId : String) (tgt : Option String)
    (fwd rev : String) : List Edge :=
  match tgt with
  | none => edges
  | some t => edges ++ [⟨seedId, t, fwd⟩, ⟨t, seedId, rev⟩]

/-- The semantically-inverse relation pairs of the v6 vocabulary. -/
def invPairs : List (String × String) :=
  [("is spouse of", "is spouse of"),
   ("is child of", "is father of"), ("is father of", "is child of"),
   ("is child of", "is mother of"), ("is mother of", "is child of"),
   ("is child of", "is parent of"), ("is parent of", "is child of"),
   ("is sibling of", "is sibling of"),
   ("is relative of", "is relative of")]

/-- `a` and `b` are semantically inverse relation labels. -/
def isInverse (a b : String) : Bool := invPairs.contains (a, b)

/-! ### Conflict consolidation (v6 lines 161-195) -/

/-- `parent_set = {'is father of', 'is mother of', 'is parent of'}`. -/
def parentRels : List String := ["is father of", "is mother of", "is parent of"]

/-- `child_edge = 'is child of'`. -/
def childRel : String := "is child of"

/-- The parentage family: the parent-forward labels together with the
child-backward label. -/
def familyRels : List String :=
  ["is father of", "is mother of", "is parent of", "is child of"]

/-- Python `set` of relation labels, modelled as an insertion-ordered
duplicate-free list. -/
structure GroupSets where
  fwd : List String
  rev : List String
deriving DecidableEq, Repr

/-- `combined[(e['seed'],e['rel'])]['fwd'].add(e['relType'])` — defaultdict
access creates the group at the end when absent. -/
def touchFwd (k : String × String) (t : String)
    (m : List ((String × String) × GroupSets)) :
    List ((String × String) × GroupSets) :=
  match lookupKV m k with
  | some g => dictInsert k { g with fwd := setAdd t g.fwd } m
  | none => m ++ [(k, ⟨[t], []⟩)]

/-- `combined[(e['rel'],e['seed'])]['rev'].add(e['relType'])`. -/
def touchRev (k : String × String) (t : String)
    (m : List ((String × String) × GroupSets)) :
    List ((String × String) × GroupSets) :=
  match lookupKV m k with
  | some g => dictInsert k { g with rev := setAdd t g.rev } m
  | none => m ++ [(k, ⟨[], [t]⟩)]

/-- The body of the grouping loop for one edge (v6 lines 164-166). -/
def combStep (m : List ((String × String) × GroupSets)) (e : Edge) :
    List ((String × String) × GroupSets) :=
  touchRev (e.rel, e.seed) e.relType (touchFwd (e.seed, e.rel) e.relType m)

/-- The grouping loop (v6 lines 163-166): one pass over the accumulated
edges, filling `fwd` and `rev` type sets per ordered pair. -/
def buildCombined (edges : List Edge) : List ((String × String) × GroupSets) :=
  edges.foldl combStep []

/-- `combined[(a,b)]` with the defaultdict default. -/
def getGroup (m : List ((String × String) × GroupSets)) (k : String × String) :
    GroupSets :=
  (lookupKV m k).getD ⟨[], []⟩

/-- The parentage selection of a group (v6 lines 172-187), operating on the
group's forward type set. -/
def selectGroup (types : List String) : Option String :=
  let par := types.filter (fun t => decide (t ∈ parentRels))
  let child := types.filter (fun t => decide (t = childRel))
  if par ≠ [] then
    if "is father of" ∈ par ∧ "is mother of" ∈ par then some "is parent of"
    else if "is father of" ∈ par then some "is father of"
    else if "is mother of" ∈ par then some "is mother of"
    else some "is parent of"
  else if child ≠ [] then some childRel
  else none

/-- `others = types - parent_set - {child_edge}` (v6 line 175). -/
def othersOf (types : List String) : List String :=
  types.filter (fun t => decide (t ∉ parentRels) && decide (t ≠ childRel))

/-- Edges emitted for one group (v6 lines 188-193): the selected parentage
edge, if any, followed by every non-parentage type. -/
def emitGroup (k : String × String) (g : GroupSets) : List Edge :=
  (match selectGroup g.fwd with
   | some t => [⟨k.1, k.2, t⟩]
   | none => []) ++ (othersOf g.fwd).map (fun t => ⟨k.1, k.2, t⟩)

/-- Emission over all groups in dict iteration order. -/
def emitAll : List ((String × String) × GroupSets) → List Edge
  | [] => []
  | (k, g) :: rest => emitGroup k g ++ emitAll rest

/-- The whole consolidation pass (v6 lines 161-195): group, select per
ordered pair, then `_dedup_edges` the result. -/
def consolidate (edges : List Edge) : List Edge :=
  dedupV6 (emitAll (buildCombined edges))

/-- The consolidated edges for the ordered pair `(a, b)` whose relation
label is in the parentage family. -/
def isFamilyFor (a b : String) (e : Edge) : Bool :=
  e.seed == a && e.rel == b && decide (e.relType ∈ familyRels)

/-! ## Wikidata aggregator, earlier variant (process_wd_full_clean.py) -/

/-- An edge as read from JSON, where any of the three fields may be missing
(`e.get(...)` returning `None`). -/
structure RawEdge where
  seed : Option String
  rel : Option String
  relType : Option String
deriving DecidableEq, Repr

/-- The key `(e.get('seed'), e.get('rel'), e.get('relType'))` of an edge,
defined when no field is missing (`None not in key`). -/
def fullKey (e : RawEdge) : Option (String × String × String) :=
  match e.seed, e.rel, e.relType with
  | some a, some b, some c => some (a, b, c)
  | _, _, _ => none

/-- The edge dict `{'seed': key[0], 'rel': key[1], 'relType': key[2]}`
rebuilt from a key (line 71). -/
def mkComplete (k : String × String × String) : RawEdge :=
  ⟨some k.1, some k.2.1, some k.2.2⟩

/-- One step of the `_dedup_edges` loop of process_wd_full_clean.py
(lines 68-71): skip the edge when a field is missing, else store the
rebuilt edge under its key. -/
def cleanStep (m : List ((String × String × String) × RawEdge)) (e : RawEdge) :
    List ((String × String × String) × RawEdge) :=
  match fullKey e with
  | some k => dictInsert k (mkComplete k) m
  | none => m

/-- `_dedup_edges` of process_wd_full_clean.py (lines 65-72): key each edge
by `(seed, rel, relType)`, silently drop edges with a missing field
(`if None not in key`), rebuild the stored dict from the key, and return
the dict's values. -/
def dedupEdgesClean (l : List RawEdge) : List RawEdge :=
  (l.foldl cleanStep []).map Prod.snd

/-- All three fields of a raw edge are present. -/
def RawEdge.complete (e : RawEdge) : Prop :=
  e.seed ≠ none ∧ e.rel ≠ none ∧ e.relType ≠ none

instance (e : RawEdge) : Decidable e.complete := by
  unfold RawEdge.complete; infer_instance

/-! ### Persisted data file (`_load_data` / `_save_data`, lines 47-93)

A property value in the data file is either a JSON scalar, a JSON list or
`null`; in memory (after `_load_data` and in the accumulation pool) every
value is a list. -/

/-- A property value as stored in the data file. -/
inductive PVal where
  | scalar (s : String)
  | arr (l : List String)
  | null
deriving DecidableEq, Repr

/-- Python `list(dict.fromkeys(v))`: deduplicate keeping the first
occurrence of each element. -/
def pyDedup (l : List String) : List String :=
  l.foldl (fun acc x => if x ∈ acc then acc else acc ++ [x]) []

/-- `_save_data` on one property value (lines 82-86): deduplicate, then
write a scalar when exactly one element remains, else the list. -/
def saveVal (v : List String) : PVal :=
  match pyDedup v with
  | [x] => PVal.scalar x
  | u => PVal.arr u

/-- `_load_data` on one property value (lines 60-62): wrap a non-list into a
one-element list (`[v] if v is not None else []`). -/
def loadVal (v : PVal) : List String :=
  match v with
  | PVal.scalar s => [s]
  | PVal.arr l => l
  | PVal.null => []

/-- An in-memory person node: id plus the `props` and `attributes`
sections, each an insertion-ordered mapping from key to list of values. -/
structure PersonMem where
  pid : String
  props : List (String × List String)
  attrs : List (String × List String)
deriving DecidableEq, Repr

/-- A person node as written to the data file. -/
structure PersonRec where
  pid : String
  props : List (String × PVal)
  attrs : List (String × PVal)
deriving DecidableEq, Repr

/-- `_save_data` on one person (lines 78-87). -/
def savePerson (p : PersonMem) : PersonRec :=
  ⟨p.pid, p.props.map (fun kv => (kv.1, saveVal kv.2)),
   p.attrs.map (fun kv => (kv.1, saveVal kv.2))⟩

/-- `_load_data` on one person (lines 56-62). -/
def loadPerson (p : PersonRec) : PersonMem :=
  ⟨p.pid, p.props.map (fun kv => (kv.1, loadVal kv.2)),
   p.attrs.map (fun kv => (kv.1, loadVal kv.2))⟩

/-! ## Crawl-frontier tracker (`seen`, both aggregator variants)

`shared_state.json` holds `{'seen': {qid: bool}}`.  During a run the seed
qid of each batch is set `True` unconditionally (`seen[seed_qid] = True`)
and every relationship target is added as `False` only when absent
(`if tgt['id'] not in seen: seen[tgt['id']] = False`). -/

/-- The frontier state: qid → resolved flag. -/
abbrev Frontier : Type := List (String × Bool)

/-- The two frontier-touching ingestion steps. -/
inductive FEvent where
  | markSeed (q : String)
  | observeTarget (q : String)
deriving DecidableEq, Repr

/-- One frontier step. -/
def stepFrontier (st : Frontier) (e : FEvent) : Frontier :=
  match e with
  | FEvent.markSeed q => dictInsert q true st
  | FEvent.observeTarget q =>
    match lookupKV st q with
    | some _ => st
    | none => st ++ [(q, false)]

/-- A sequence of frontier steps. -/
def runFrontier (st : Frontier) (evs : List FEvent) : Frontier :=
  evs.foldl stepFrontier st

/-- The exported pending list (`next_q`, clean.py line 227 / v6 line 215):
the ids whose resolved flag is `False`. -/
def pendingIds (st : Frontier) : List String :=
  (st.filter (fun p => !p.2)).map Prod.fst

/-! ## Helper lemmas: the dict model -/

theorem lookupKV_dictInsert_self {α β : Type} [DecidableEq α] (k : α) (v : β)
    (m : List (α × β)) : lookupKV (dictInsert k v m) k = some v := by
  induction m with
  | nil => simp [dictInsert, lookupKV]
  | cons p m ih =>
    obtain ⟨k', v'⟩ := p
    by_cases h : k' = k
    · simp [dictInsert, h, lookupKV]
    · simp [dictInsert, h, lookupKV, ih]

theorem lookupKV_dictInsert_ne {α β : Type} [DecidableEq α] (k q : α) (v : β)
    (m : List (α × β)) (h : q ≠ k) :
    lookupKV (dictInsert k v m) q = lookupKV m q := by
  have hne : ¬ k = q := fun hh => h hh.symm
  induction m with
  | nil => simp [dictInsert, lookupKV, hne]
  | cons p m ih =>
    obtain ⟨k', v'⟩ := p
    by_cases hk : k' = k
    · subst hk
      simp [dictInsert, lookupKV, hne]
    · simp [dictInsert, hk, lookupKV, ih]

theorem lookupKV_append {α β : Type} [DecidableEq α] (m₁ m₂ : List (α × β)) (q : α) :
    lookupKV (m₁ ++ m₂) q =
      match lookupKV m₁ q with
      | some v => some v
      | none => lookupKV m₂ q := by
  induction m₁ with
  | nil => simp [lookupKV]
  | cons p m ih =>
    obtain ⟨k, v⟩ := p
    by_cases h : k = q
    · simp [lookupKV, h]
    · simp [lookupKV, h, ih]

theorem lookupKV_eq_none_iff {α β : Type} [DecidableEq α] (m : List (α × β)) (q : α) :
    lookupKV m q = none ↔ q ∉ m.map Prod.fst := by
  induction m with
  | nil => simp [lookupKV]
  | cons p m ih =>
    obtain ⟨k, v⟩ := p
    by_cases h : k = q
    · simp [lookupKV, h]
    · simp [lookupKV, h, ih, Ne.symm h]

theorem map_fst_dictInsert_mem {α β : Type} [DecidableEq α] (k : α) (v : β)
    (m : List (α × β)) (h : k ∈ m.map Prod.fst) :
    (dictInsert k v m).map Prod.fst = m.map Prod.fst := by
  induction m with
  | nil => simp at h
  | cons p m ih =>
    obtain ⟨k', v'⟩ := p
    by_cases hk : k' = k
    · simp [dictInsert, hk]
    · simp only [List.map_cons, List.mem_cons] at h
      rcases h with h | h

      · exact absurd h.symm hk
      · simp [dictInsert, hk, ih h]

theorem map_fst_dictInsert_not_mem {α β : Type} [DecidableEq α] (k : α) (v : β)
    (m : List (α × β)) (h : k ∉ m.map Prod.fst) :
    (dictInsert k v m).map Prod.fst = m.map Prod.fst ++ [k] := by
  induction m with
  | nil => simp [dictInsert]
  | cons p m ih =>
    obtain ⟨k', v'⟩ := p
    simp only [List.map_cons, List.mem_cons] at h
    push_neg at h
    have hk : k' ≠ k := fun hh => h.1 hh.symm
    simp [dictInsert, hk, ih h.2]

theorem nodup_keys_dictInsert {α β : Type} [DecidableEq α] (k : α) (v : β)
    (m : List (α × β)) (h : (m.map Prod.fst).Nodup) :
    ((dictInsert k v m).map Prod.fst).Nodup := by
  by_cases hm : k ∈ m.map Prod.fst
  · rw [map_fst_dictInsert_mem k v m hm]; exact h
  · rw [map_fst_dictInsert_not_mem k v m hm]
    apply List.Nodup.append h (List.nodup_singleton k)
    intro a ha hb
    simp only [List.mem_singleton] at hb
    subst hb
    exact hm ha

theorem mem_dictInsert {α β : Type} [DecidableEq α] (k : α) (v : β)
    (m : List (α × β)) (p : α × β) (hp : p ∈ dictInsert k v m) :
    p ∈ m ∨ p = (k, v) := by
  induction m with
  | nil => simpa [dictInsert] using hp
  | cons q m ih =>
    obtain ⟨k', v'⟩ := q
    by_cases h : k' = k
    · simp [dictInsert, h] at hp
      rcases hp with hp | hp
      · right; simp [hp]
      · left; simp [hp]
    · simp [dictInsert, h] at hp
      rcases hp with hp | hp
      · left; simp [hp]
      · rcases ih hp with hh | hh
        · left; simp [hh]
        · right; exact hh

theorem dictInsert_of_not_mem {α β : Type} [DecidableEq α] (k : α) (v : β)
    (m : List (α × β)) (h : k ∉ m.map Prod.fst) :
    dictInsert k v m = m ++ [(k, v)] := by
  induction m with
  | nil => simp [dictInsert]
  | cons q m ih =>
    obtain ⟨k', v'⟩ := q
    simp only [List.map_cons, List.mem_cons] at h
    push_neg at h
    have hk : k' ≠ k := fun hh => h.1 hh.symm
    simp [dictInsert, hk, ih h.2]

theorem mem_map_snd_dictInsert {α β : Type} [DecidableEq α] (f : α → β)
    (k : α) (m : List (α × β)) (hm : ∀ p ∈ m, p.2 = f p.1) (x : β) :
    (x ∈ (dictInsert k (f k) m).map Prod.snd) ↔ x ∈ m.map Prod.snd ∨ x = f k := by
  induction m with
  | nil => simp [dictInsert]
  | cons p m ih =>
    obtain ⟨k', v'⟩ := p
    have hv' : v' = f k' := hm (k', v') (by simp)
    by_cases h : k' = k
    · subst h
      subst hv'
      simp [dictInsert]
      tauto
    · have ihh := ih (fun p hp => hm p (by simp [hp]))
      simp [dictInsert, h, ihh]
      tauto

theorem nodup_map_snd_of_key_det {α β : Type} [DecidableEq α] (f : α → β)
    (hf : Function.Injective f) (m : List (α × β))
    (hm : ∀ p ∈ m, p.2 = f p.1) (hk : (m.map Prod.fst).Nodup) :
    (m.map Prod.snd).Nodup := by
  have hmap : m.map Prod.snd = (m.map Prod.fst).map f := by
    rw [List.map_map]
    exact List.map_congr_left (fun p hp => hm p hp)
  rw [hmap]
  exact hk.map hf

theorem mem_setAdd (x t : String) (s : List String) :
    x ∈ setAdd t s ↔ x ∈ s ∨ x = t := by
  unfold setAdd
  by_cases h : t ∈ s
  · simp [h]
    intro hx
    subst hx
    exact h
  · simp [h]

theorem nodup_mem_singleton_eq {α : Type} (l : List α) (c : α) (hn : l.Nodup)
    (h : ∀ x, x ∈ l ↔ x = c) : l = [c] := by
  cases l with
  | nil =>
    have := (h c).mpr rfl
    simp at this
  | cons x t =>
    have hx : x = c := (h x).mp (by simp)
    subst hx
    cases t with
    | nil => rfl
    | cons y t2 =>
      have hy : y = x := (h y).mp (by simp)
      subst hy
      simp at hn

/-! ## Claim C3: frontier monotonicity and the pending export -/

theorem stepFrontier_keeps_true (st : Frontier) (e : FEvent) (q : String)
    (h : lookupKV st q = some true) : lookupKV (stepFrontier st e) q = some true := by
  cases e with
  | markSeed p =>
    by_cases hq : q = p
    · subst hq
      simp [stepFrontier, lookupKV_dictInsert_self]
    · simpa [stepFrontier, lookupKV_dictInsert_ne p q true st hq] using h
  | observeTarget p =>
    simp only [stepFrontier]
    cases hl : lookupKV st p with
    | some b => exact h
    | none =>
      rw [lookupKV_append]
      simp [h]

theorem runFrontier_keeps_true (st : Frontier) (evs : List FEvent) (q : String)
    (h : lookupKV st q = some true) :
    lookupKV (runFrontier st evs) q = some true := by
  induction evs generalizing st with
  | nil => exact h
  | cons e evs ih => exact ih (stepFrontier st e) (stepFrontier_keeps_true st e q h)

theorem pendingIds_subset_keys (st : Frontier) (q : String)
    (hq : q ∈ pendingIds st) : q ∈ st.map Prod.fst := by
  simp only [pendingIds, List.mem_map, List.mem_filter] at hq
  obtain ⟨p, ⟨hp, _⟩, rfl⟩ := hq
  exact List.mem_map_of_mem Prod.fst hp

theorem mem_pendingIds_iff (st : Frontier) (q : String)
    (hnd : (st.map Prod.fst).Nodup) :
    q ∈ pendingIds st ↔ lookupKV st q = some false := by
  induction st with
  | nil => simp [pendingIds, lookupKV]
  | cons p st ih =>
    obtain ⟨k, b⟩ := p
    simp only [List.map_cons, List.nodup_cons] at hnd
    by_cases hq : k = q
    · subst hq
      cases b
      · simp [pendingIds, lookupKV]
      · simp only [pendingIds, lookupKV, if_pos rfl]
        constructor
        · intro hmem
          exfalso
          have : k ∈ st.map Prod.fst := by
            apply pendingIds_subset_keys st
            simpa [pendingIds] using hmem
          exact hnd.1 this
        · intro hh
          simp at hh
    · cases b
      · simp only [pendingIds, List.filter_cons, lookupKV, if_neg hq]
        simpa [pendingIds, Ne.symm hq] using ih hnd.2
      · simp only [pendingIds, List.filter_cons, lookupKV, if_neg hq]
        simpa [pendingIds] using ih hnd.2

/-- Claim C3: over any sequence of ingestion steps from any frontier state,
a resolved flag that is `true` stays `true` (marking the batch seed sets it
`true` unconditionally; re-observing an already-resolved id as a target
leaves it `true`), and the exported pending list holds exactly the ids
whose flag is `false`. -/
theorem frontier_monotone_and_pending (st : Frontier) (evs : List FEvent) (q : String) :
    (lookupKV st q = some true → lookupKV (runFrontier st evs) q = some true)
    ∧ lookupKV (stepFrontier st (FEvent.markSeed q)) q = some true
    ∧ ((st.map Prod.fst).Nodup → (q ∈ pendingIds st ↔ lookupKV st q = some false)) :=
  ⟨runFrontier_keeps_true st evs q,
   lookupKV_dictInsert_self q true st,
   mem_pendingIds_iff st q⟩

/-- Witness for C3 at a concrete frontier: `Q1` is resolved, a later batch
re-observes it as a target and discovers `Q2`; `Q1` stays resolved and the
pending list is characterized by the `false` flag. -/
theorem frontier_monotone_and_pending_witness :
    lookupKV (runFrontier [("Q1", true)]
      [FEvent.observeTarget "Q1", FEvent.observeTarget "Q2"]) "Q1" = some true
    ∧ ("Q2" ∈ pendingIds [("Q1", true), ("Q2", false)]
        ↔ lookupKV [("Q1", true), ("Q2", false)] "Q2" = some false) :=
  ⟨(frontier_monotone_and_pending [("Q1", true)]
      [FEvent.observeTarget "Q1", FEvent.observeTarget "Q2"] "Q1").1 (by decide),
   (frontier_monotone_and_pending [("Q1", true), ("Q2", false)] [] "Q2").2.2 (by decide)⟩

/-! ## Claim C5: role-edge re-merge semantics -/

/-- Claim C5 counterexample: re-merging a role edge whose `startDate` is
already stored (`"2020"`) with a new ingest supplying `"2021"` overwrites
the stored date — the dates are not first-write-wins as claimed: the new
value wins whenever it is non-null (`coalesce($start, r.startDate)`). -/
theorem role_dates_not_first_write_wins :
    lookupKV (mergeRole (mergeRole [] "p1" "c1" "CEO" (some "2020") none "MAS_csv" "f1.csv")
        "p1" "c1" "CEO" (some "2021") (some "2022") "annual_report" "f2.json")
      ("p1", "c1", "CEO")
      = some ⟨some "2021", some "2022", "annual_report", "f2.json"⟩
    ∧ lookupKV (mergeRole [] "p1" "c1" "CEO" (some "2020") none "MAS_csv" "f1.csv")
      ("p1", "c1", "CEO") = some ⟨some "2020", none, "MAS_csv", "f1.csv"⟩
    ∧ (some "2021" : Option String) ≠ some "2020" := by
  refine ⟨rfl, rfl, by decide⟩

/-- Claim C5 as amended: on re-merge of an existing role edge, `startDate`
and `endDate` take the newly supplied value whenever the new ingest
provides one and keep the stored value only when the new value is absent
(last-non-null-write-wins, not first-write-wins), while the provenance
fields `reference_type` and `reference_file` are always overwritten (role
edges carry no updated-timestamp property). -/
theorem role_merge_amended (st : RoleStore) (pid cid role : String)
    (start stop : Option String) (sT sF : String) (r : RoleRec)
    (h : lookupKV st (pid, cid, role) = some r) :
    lookupKV (mergeRole st pid cid role start stop sT sF) (pid, cid, role)
      = some ⟨coalesce start r.startDate, coalesce stop r.endDate, sT, sF⟩
    ∧ (start = none → coalesce start r.startDate = r.startDate)
    ∧ (∀ v, start = some v → coalesce start r.startDate = some v)
    ∧ (stop = none → coalesce stop r.endDate = r.endDate)
    ∧ (∀ v, stop = some v → coalesce stop r.endDate = some v) := by
  refine ⟨?_, ?_, ?_, ?_, ?_⟩
  · unfold mergeRole
    rw [h]
    exact lookupKV_dictInsert_self _ _ _
  · intro hs; subst hs; rfl
  · intro v hs; subst hs; rfl
  · intro hs; subst hs; rfl
  · intro v hs; subst hs; rfl

/-- Witness for the amended C5 at a concrete store: a new ingest with an
absent start keeps the stored start, supplies the end, and refreshes the
provenance. -/
theorem role_merge_amended_witness :
    lookupKV (mergeRole [(("p1", "c1", "CEO"), ⟨some "2020", none, "MAS_csv", "f1.csv"⟩)]
        "p1" "c1" "CEO" none (some "2022") "annual_report" "f2.json") ("p1", "c1", "CEO")
      = some ⟨coalesce none (some "2020"), coalesce (some "2022") none,
          "annual_report", "f2.json"⟩
    ∧ (none = (none : Option String) → coalesce (none : Option String) (some "2020") = some "2020")
    ∧ (∀ v, (none : Option String) = some v → coalesce (none : Option String) (some "2020") = some v)
    ∧ (some "2022" = (none : Option String) → coalesce (some "2022") (none : Option String) = none)
    ∧ (∀ v, some "2022" = some v → coalesce (some "2022") (none : Option String) = some v) :=
  role_merge_amended [(("p1", "c1", "CEO"), ⟨some "2020", none, "MAS_csv", "f1.csv"⟩)]
    "p1" "c1" "CEO" none (some "2022") "annual_report" "f2.json"
    ⟨some "2020", none, "MAS_csv", "f1.csv"⟩ (by decide)

/-! ## Claim C4: self-loop suppression -/

/-- Claim C4 counterexample: in the v6 aggregator a family fact whose two
person references resolve to the same id (`Q1`) is NOT dropped before the
accumulated edge set — the relation loop appends two self-loop edges, and
the self-loop even survives the consolidation pass into the persisted edge
list.  (`spouse` is a genuine relation column of the v6 `rel_map`.) -/
theorem selfloop_reaches_edge_set :
    addRelEdgesV6 [] "Q1" (some "Q1") "is spouse of" "is spouse of"
      = [⟨"Q1", "Q1", "is spouse of"⟩, ⟨"Q1", "Q1", "is spouse of"⟩]
    ∧ consolidate [⟨"Q1", "Q1", "is spouse of"⟩, ⟨"Q1", "Q1", "is spouse of"⟩]
      = [⟨"Q1", "Q1", "is spouse of"⟩]
    ∧ ("spouse", "is spouse of", "is spouse of") ∈ relMapV6 none := by
  refine ⟨rfl, by decide, by decide⟩

/-- Claim C4 as amended: the v6 aggregator does admit same-id facts into
its accumulated edge set, but the graph writer drops every self-loop:
`write_family` is a no-op when source equals destination, so a store with
no self-loop family edge never acquires one. -/
theorem writeFamily_selfloop_guard (st : FamStore) (sid did rel sT sF : String) :
    (sid = did → writeFamily st sid did rel sT sF = st)
    ∧ (NoSelfLoop st → NoSelfLoop (writeFamily st sid did rel sT sF)) := by
  constructor
  · intro h
    simp [writeFamily, h]
  · intro hns
    by_cases h : sid = did
    · simpa [writeFamily, h] using hns
    · simp only [writeFamily, if_neg h]
      cases hl : lookupKV st (sid, did, rel) with
      | none =>
        intro p hp
        rcases List.mem_append.mp hp with hp | hp
        · exact hns p hp
        · simp only [List.mem_singleton] at hp
          subst hp
          exact h
      | some r =>
        intro p hp
        rcases mem_dictInsert _ _ _ _ hp with hp | hp
        · exact hns p hp
        · subst hp
          exact h

/-- Witness for the amended C4: a self-loop write leaves a concrete store
untouched, and the no-self-loop invariant is preserved there. -/
theorem writeFamily_selfloop_guard_witness :
    writeFamily [(("Q1", "Q2", "is spouse of"), ⟨"wikidata", "d.json"⟩)]
      "Q1" "Q1" "is spouse of" "wikidata" "d.json"
      = [(("Q1", "Q2", "is spouse of"), ⟨"wikidata", "d.json"⟩)] :=
  (writeFamily_selfloop_guard [(("Q1", "Q2", "is spouse of"), ⟨"wikidata", "d.json"⟩)]
    "Q1" "Q1" "is spouse of" "wikidata" "d.json").1 rfl

/-! ## Claims C6 and C7: the matcher -/

/-- Claim C6 counterexample: with registry iteration order
`["john_smithh", "john_smith"]` and query `"john_smith"`, both entries
clear the threshold, the second scores strictly higher (an exact match,
score 100, against 2000/21 ≈ 95.2), yet the lookup returns the first-found
lower-scoring entry — the highest-scoring candidate does not win. -/
theorem fuzzy_person_not_highest_score :
    clearsFuzz "john_smithh" "john_smith" = true
    ∧ clearsFuzz "john_smith" "john_smith" = true
    ∧ scoreLt (tokenSetScore "john_smithh" "john_smith")
        (tokenSetScore "john_smith" "john_smith")
    ∧ fuzzyFindPerson ["john_smithh", "john_smith"] "john_smith" = some "john_smithh"
    ∧ "john_smithh" ≠ "john_smith" := by
  refine ⟨by decide, by decide, by decide, by decide, by decide⟩

/-- Claim C6 as amended: when several registry entries clear the similarity
threshold, the entry merged into is the first one in registry iteration
(insertion) order that clears it, irrespective of the candidates' relative
scores. -/
theorem fuzzy_person_first_match (ks1 ks2 : List String) (k s : String)
    (h1 : ∀ k' ∈ ks1, clearsFuzz k' s = false) (h2 : clearsFuzz k s = true) :
    fuzzyFindPerson (ks1 ++ k :: ks2) s = some k := by
  unfold fuzzyFindPerson
  induction ks1 with
  | nil =>
    simp only [List.nil_append, List.find?_cons, h2]
  | cons a ks ih =>
    have ha := h1 a (by simp)
    simp only [List.cons_append, List.find?_cons, ha]
    exact ih (fun k' hk => h1 k' (by simp [hk]))

/-- Witness for the amended C6: the first threshold-clearing key wins at a
concrete registry. -/
theorem fuzzy_person_first_match_witness :
    fuzzyFindPerson (["zzz"] ++ "john_smithh" :: ["john_smith"]) "john_smith"
      = some "john_smithh" :=
  fuzzy_person_first_match ["zzz"] ["john_smith"] "john_smithh" "john_smith"
    (by decide) (by decide)

/-- Claim C7 counterexample: `"abcdef"` vs `"abcdgh"` clears the bounded
edit-distance fallback (Levenshtein distance 2) but not the token-overlap
threshold; company resolution accepts it while person resolution rejects
it — person matching does not accept on either signal. -/
theorem person_matcher_lacks_lev_fallback :
    clearsLev "abcdef" "abcdgh" = true
    ∧ clearsFuzz "abcdef" "abcdgh" = false
    ∧ fuzzyFindPerson ["abcdef"] "abcdgh" = none
    ∧ fuzzyFindCompany ["abcdef"] "abcdgh" = some "abcdef" := by
  refine ⟨by decide, by decide, by decide, by decide⟩

/-- Claim C7 as amended: during company resolution a match is accepted
exactly when either signal — token-overlap similarity or the bounded
edit-distance fallback — clears its threshold; during person resolution
only the token-overlap signal is consulted. -/
theorem matcher_signals_amended (keys : List String) (s : String) :
    (∀ k, fuzzyFindCompany keys s = some k →
        k ∈ keys ∧ (clearsFuzz k s = true ∨ clearsLev k s = true))
    ∧ ((∃ k ∈ keys, clearsFuzz k s = true ∨ clearsLev k s = true) →
        ∃ k, fuzzyFindCompany keys s = some k)
    ∧ (∀ k, fuzzyFindPerson keys s = some k → k ∈ keys ∧ clearsFuzz k s = true)
    ∧ (fuzzyFindPerson keys s = none → ∀ k ∈ keys, clearsFuzz k s = false) := by
  unfold fuzzyFindPerson fuzzyFindCompany
  refine ⟨?_, ?_, ?_, ?_⟩
  · intro k h
    refine ⟨List.mem_of_find?_eq_some h, ?_⟩
    have := List.find?_some h
    simpa [Bool.or_eq_true] using this
  · intro ⟨k, hk, hsig⟩
    have : (List.find? (fun k => clearsFuzz k s || clearsLev k s) keys).isSome := by
      rw [List.find?_isSome]
      exact ⟨k, hk, by simpa [Bool.or_eq_true] using hsig⟩
    obtain ⟨k', hk'⟩ := Option.isSome_iff_exists.mp this
    exact ⟨k', hk'⟩
  · intro k h
    have hs := List.find?_some h
    exact ⟨List.mem_of_find?_eq_some h, hs⟩
  · intro h k hk
    have := List.find?_eq_none.mp h k hk
    simpa using this

/-- Witness for the amended C7: company resolution at a concrete registry
returns a key that cleared (only) the edit-distance signal. -/
theorem matcher_signals_amended_witness :
    "abcdef" ∈ ["abcdef"]
    ∧ (clearsFuzz "abcdef" "abcdgh" = true ∨ clearsLev "abcdef" "abcdgh" = true) :=
  (matcher_signals_amended ["abcdef"] "abcdgh").1 "abcdef" (by decide)

/-! ## Claim C2: authoritative external identifiers -/

/-- Claim C2 (code bug): `get_or_create_person` keys the qid registry by
name slug (`qid_registry: qid → slug`, `person_registry: slug → entry`).
Creating `"John Smith"` with qid `Q1` and then a different person with the
colliding slug (`"John  Smith"`, qid `Q2`) overwrites the shared
`person_registry["john_smith"]` slot; a later mention carrying `Q1` then
returns id `"Q2"` — not the id of the entry created for `Q1`, although the
first call did return `"Q1"`. -/
theorem qid_identity_broken_by_slug_collision :
    ((getOrCreatePerson "John Smith" none [] (some "Q1") emptyReg).bind (fun r =>
      (getOrCreatePerson "John  Smith" none [] (some "Q2") r.2).bind (fun r2 =>
      (getOrCreatePerson "Any Name" none [] (some "Q1") r2.2).map Prod.fst)))
      = some "Q2"
    ∧ (getOrCreatePerson "John Smith" none [] (some "Q1") emptyReg).map Prod.fst
      = some "Q1"
    ∧ "Q2" ≠ "Q1" := by
  refine ⟨by decide, by decide, by decide⟩

/-! ## Claim C8: both directions before consolidation -/

/-- Claim C8: for every relation column of the v6 `rel_map` (under any
inferred gender) and any resolved, distinct seed/target ids, processing the
fact appends exactly the forward edge and its semantically-inverse reverse
edge to the accumulated edge set — consolidation runs only afterwards, on
the accumulated list. -/
theorem both_directions_added (gender : Option String) (edges : List Edge)
    (seedId tgtId col fwd rev : String)
    (hmem : (col, fwd, rev) ∈ relMapV6 gender) (hne : seedId ≠ tgtId) :
    addRelEdgesV6 edges seedId (some tgtId) fwd rev
      = edges ++ [⟨seedId, tgtId, fwd⟩, ⟨tgtId, seedId, rev⟩]
    ∧ isInverse fwd rev = true := by
  refine ⟨rfl, ?_⟩
  simp only [relMapV6, List.mem_cons, List.not_mem_nil, or_false,
    Prod.mk.injEq] at hmem
  rcases hmem with ⟨_, h1, h2⟩ | ⟨_, h1, h2⟩ | ⟨_, h1, h2⟩ | ⟨_, h1, h2⟩
    | ⟨_, h1, h2⟩ | ⟨_, h1, h2⟩ <;> subst h1 <;> subst h2
  · decide
  · decide
  · decide
  · split_ifs <;> decide
  · decide
  · decide

/-- Witness for C8: a `father` fact between `Q1` and `Q2` yields the
`is child of` forward edge and the inverse `is father of` reverse edge. -/
theorem both_directions_added_witness :
    addRelEdgesV6 [] "Q1" (some "Q2") "is child of" "is father of"
      = [] ++ [⟨"Q1", "Q2", "is child of"⟩, ⟨"Q2", "Q1", "is father of"⟩]
    ∧ isInverse "is child of" "is father of" = true :=
  both_directions_added none [] "Q1" "Q2" "father" "is child of" "is father of"
    (by decide) (by decide)

/-! ## Claims C10 and C9: edge dedup and the data-file round trip -/

theorem fullKey_complete (e : RawEdge) (h : e.complete) :
    ∃ k, fullKey e = some k ∧ mkComplete k = e := by
  obtain ⟨s0, r0, t0⟩ := e
  cases s0 with
  | none => exact absurd rfl h.1
  | some a =>
    cases r0 with
    | none => exact absurd rfl h.2.1
    | some b =>
      cases t0 with
      | none => exact absurd rfl h.2.2
      | some c => exact ⟨(a, b, c), rfl, rfl⟩

theorem fullKey_none (e : RawEdge) (h : ¬ e.complete) : fullKey e = none := by
  obtain ⟨s0, r0, t0⟩ := e
  cases s0 <;> cases r0 <;> cases t0 <;>
    first
    | rfl
    | (exfalso; exact h ⟨by simp, by simp, by simp⟩)

theorem mkComplete_injective : Function.Injective mkComplete := by
  intro k1 k2 h
  obtain ⟨a1, b1, c1⟩ := k1
  obtain ⟨a2, b2, c2⟩ := k2
  simp only [mkComplete, RawEdge.mk.injEq, Option.some.injEq] at h
  obtain ⟨h1, h2, h3⟩ := h
  subst h1; subst h2; subst h3
  rfl

theorem cleanFold_spec (l : List RawEdge) : ∀ m,
    ((m.map Prod.fst).Nodup) → (∀ p ∈ m, p.2 = mkComplete p.1) →
    ((List.foldl cleanStep m l).map Prod.fst).Nodup
    ∧ (∀ p ∈ List.foldl cleanStep m l, p.2 = mkComplete p.1)
    ∧ (∀ x, x ∈ (List.foldl cleanStep m l).map Prod.snd ↔
        x ∈ m.map Prod.snd ∨ (x ∈ l ∧ x.complete)) := by
  induction l with
  | nil =>
    intro m hk hv
    exact ⟨hk, hv, by simp⟩
  | cons e l ih =>
    intro m hk hv
    simp only [List.foldl_cons]
    by_cases hc : e.complete
    · obtain ⟨k, hfk, hmk⟩ := fullKey_complete e hc
      have hstep : cleanStep m e = dictInsert k (mkComplete k) m := by
        simp [cleanStep, hfk]
      rw [hstep]
      have hk' := nodup_keys_dictInsert k (mkComplete k) m hk
      have hv' : ∀ p ∈ dictInsert k (mkComplete k) m, p.2 = mkComplete p.1 := by
        intro p hp
        rcases mem_dictInsert _ _ _ _ hp with hp | hp
        · exact hv p hp
        · subst hp; rfl
      obtain ⟨ih1, ih2, ih3⟩ := ih (dictInsert k (mkComplete k) m) hk' hv'
      refine ⟨ih1, ih2, ?_⟩
      intro x
      rw [ih3 x, mem_map_snd_dictInsert mkComplete k m hv x]
      constructor
      · rintro ((hx | hx) | hx)
        · exact Or.inl hx
        · subst hx
          exact Or.inr ⟨by simp [hmk], hmk ▸ hc⟩
        · exact Or.inr ⟨by simp [hx.1], hx.2⟩
      · rintro (hx | ⟨hx, hxc⟩)
        · exact Or.inl (Or.inl hx)
        · rcases List.mem_cons.mp hx with hx | hx
          · subst hx
            exact Or.inl (Or.inr hmk.symm)
          · exact Or.inr ⟨hx, hxc⟩
    · have hstep : cleanStep m e = m := by
        simp [cleanStep, fullKey_none e hc]
      rw [hstep]
      obtain ⟨ih1, ih2, ih3⟩ := ih m hk hv
      refine ⟨ih1, ih2, ?_⟩
      intro x
      rw [ih3 x]
      constructor
      · rintro (hx | hx)
        · exact Or.inl hx
        · exact Or.inr ⟨by simp [hx.1], hx.2⟩
      · rintro (hx | ⟨hx, hxc⟩)
        · exact Or.inl hx
        · rcases List.mem_cons.mp hx with hx | hx
          · subst hx
            exact absurd hxc hc
          · exact Or.inr ⟨hx, hxc⟩

/-- Claim C10: `_dedup_edges` of process_wd_full_clean.py returns a
duplicate-free list holding exactly one edge per distinct
`(seed, rel, relType)` key (edges here are fully determined by their key),
and silently drops every edge with a missing field, so malformed edges
never reach the persisted data file. -/
theorem dedup_edges_clean_spec (l : List RawEdge) :
    (dedupEdgesClean l).Nodup
    ∧ ∀ e : RawEdge, e ∈ dedupEdgesClean l ↔ (e ∈ l ∧ e.complete) := by
  obtain ⟨h1, h2, h3⟩ := cleanFold_spec l [] (by simp) (by simp)
  constructor
  · exact nodup_map_snd_of_key_det mkComplete mkComplete_injective _ h2 h1
  · intro e
    unfold dedupEdgesClean
    rw [h3 e]
    simp

theorem pyDedup_go (l : List String) : ∀ acc : List String, (acc ++ l).Nodup →
    l.foldl (fun acc x => if x ∈ acc then acc else acc ++ [x]) acc = acc ++ l := by
  induction l with
  | nil =>
    intro acc _
    simp
  | cons x l ih =>
    intro acc h
    have hx : x ∉ acc := by
      intro hmem
      rw [List.nodup_append] at h
      exact h.2.2 hmem (by simp)
    simp only [List.foldl_cons, if_neg hx]
    have h' : ((acc ++ [x]) ++ l).Nodup := by
      rw [List.append_assoc]
      simpa using h
    simpa [List.append_assoc] using ih (acc ++ [x]) h'

theorem pyDedup_eq_self (l : List String) (h : l.Nodup) : pyDedup l = l := by
  have := pyDedup_go l [] (by simpa using h)
  simpa [pyDedup] using this

theorem loadVal_saveVal (v : List String) (h : v.Nodup) : loadVal (saveVal v) = v := by
  have hd : pyDedup v = v := pyDedup_eq_self v h
  unfold saveVal
  rw [hd]
  rcases v with _ | ⟨x, _ | ⟨y, t⟩⟩ <;> rfl

theorem map_save_load (sec : List (String × List String))
    (h : ∀ kv ∈ sec, kv.2.Nodup) :
    (sec.map (fun kv => (kv.1, saveVal kv.2))).map (fun kv => (kv.1, loadVal kv.2))
      = sec := by
  rw [List.map_map]
  have hcongr : ∀ kv ∈ sec,
      ((fun kv => ((kv : String × PVal).1, loadVal kv.2)) ∘
        (fun kv => ((kv : String × List String).1, saveVal kv.2))) kv = kv := by
    intro kv hkv
    simp [Function.comp, loadVal_saveVal kv.2 (h kv hkv)]
  rw [List.map_congr_left hcongr]
  simp

theorem cleanFold_append (l : List RawEdge) : ∀ m,
    (∀ e ∈ l, e.complete) →
    ((m.map Prod.fst ++ l.filterMap fullKey).Nodup) →
    (List.foldl cleanStep m l).map Prod.snd = m.map Prod.snd ++ l := by
  induction l with
  | nil =>
    intro m _ _
    simp
  | cons e l ih =>
    intro m hc hn
    obtain ⟨k, hfk, hmk⟩ := fullKey_complete e (hc e (by simp))
    have hfkl : (e :: l).filterMap fullKey = k :: l.filterMap fullKey := by
      simp [List.filterMap_cons, hfk]
    rw [hfkl] at hn
    have hkm : k ∉ m.map Prod.fst := by
      rw [List.nodup_append] at hn
      intro hmem
      exact hn.2.2 hmem (by simp)
    have hstep : cleanStep m e = m ++ [(k, mkComplete k)] := by
      simp [cleanStep, hfk, dictInsert_of_not_mem k _ m hkm]
    simp only [List.foldl_cons, hstep]
    have hn' : ((m ++ [(k, mkComplete k)]).map Prod.fst ++ l.filterMap fullKey).Nodup := by
      simp only [List.map_append, List.map_cons, List.map_nil]
      rw [List.append_assoc]
      simpa using hn
    have hres := ih (m ++ [(k, mkComplete k)]) (fun e' he' => hc e' (by simp [he'])) hn'
    rw [hres]
    simp [hmk]

/-- Claim C9: saving the accumulated persons and edges and reloading them
reproduces the same person and edge data: per property value the only
transformation is deduplicated-single-element-list → scalar at save time,
re-wrapped into a one-element list at load time (accumulated values are
deduplicated lists), and the edge list — complete and key-distinct after
accumulation — passes `_dedup_edges` unchanged while `_load_data` leaves
edges untouched. -/
theorem save_load_round_trip (p : PersonMem) (es : List RawEdge)
    (hp : ∀ kv ∈ p.props, kv.2.Nodup) (ha : ∀ kv ∈ p.attrs, kv.2.Nodup)
    (hc : ∀ e ∈ es, e.complete) (hk : (es.filterMap fullKey).Nodup) :
    loadPerson (savePerson p) = p ∧ dedupEdgesClean es = es := by
  constructor
  · obtain ⟨pid, props, attrs⟩ := p
    simp only [savePerson, loadPerson]
    rw [map_save_load props hp, map_save_load attrs ha]
  · unfold dedupEdgesClean
    have := cleanFold_append es [] hc (by simpa using hk)
    simpa using this

/-- Witness for C9 at a concrete person and edge list. -/
theorem save_load_round_trip_witness :
    loadPerson (savePerson ⟨"Q1", [("name", ["Alice"]), ("occupation", ["a", "b"])],
        [("fooLabel", [])]⟩)
      = ⟨"Q1", [("name", ["Alice"]), ("occupation", ["a", "b"])], [("fooLabel", [])]⟩
    ∧ dedupEdgesClean [⟨some "Q1", some "Q2", some "is spouse of"⟩]
      = [⟨some "Q1", some "Q2", some "is spouse of"⟩] :=
  save_load_round_trip
    ⟨"Q1", [("name", ["Alice"]), ("occupation", ["a", "b"])], [("fooLabel", [])]⟩
    [⟨some "Q1", some "Q2", some "is spouse of"⟩]
    (by decide) (by decide) (by decide) (by decide)

/-! ## Claim C1: parentage consolidation -/

theorem keyEdge_edgeKey (e : Edge) : keyEdge (edgeKey e) = e := rfl

theorem keyEdge_injective : Function.Injective keyEdge := by
  intro k1 k2 h
  obtain ⟨a1, b1, c1⟩ := k1
  obtain ⟨a2, b2, c2⟩ := k2
  simp only [keyEdge, Edge.mk.injEq] at h
  obtain ⟨h1, h2, h3⟩ := h
  subst h1; subst h2; subst h3
  rfl

theorem v6Fold_spec (l : List Edge) : ∀ m,
    ((m.map Prod.fst).Nodup) → (∀ p ∈ m, p.2 = keyEdge p.1) →
    ((List.foldl v6Step m l).map Prod.fst).Nodup
    ∧ (∀ p ∈ List.foldl v6Step m l, p.2 = keyEdge p.1)
    ∧ (∀ x, x ∈ (List.foldl v6Step m l).map Prod.snd ↔ x ∈ m.map Prod.snd ∨ x ∈ l) := by
  induction l with
  | nil =>
    intro m hk hv
    exact ⟨hk, hv, by simp⟩
  | cons e l ih =>
    intro m hk hv
    simp only [List.foldl_cons]
    have hstep : v6Step m e = dictInsert (edgeKey e) (keyEdge (edgeKey e)) m := by
      simp [v6Step, keyEdge_edgeKey]
    rw [hstep]
    have hk' := nodup_keys_dictInsert (edgeKey e) (keyEdge (edgeKey e)) m hk
    have hv' : ∀ p ∈ dictInsert (edgeKey e) (keyEdge (edgeKey e)) m,
        p.2 = keyEdge p.1 := by
      intro p hp
      rcases mem_dictInsert _ _ _ _ hp with hp | hp
      · exact hv p hp
      · subst hp; rfl
    obtain ⟨ih1, ih2, ih3⟩ := ih _ hk' hv'
    refine ⟨ih1, ih2, ?_⟩
    intro x
    rw [ih3 x, mem_map_snd_dictInsert keyEdge (edgeKey e) m hv x, keyEdge_edgeKey]
    constructor
    · rintro ((hx | hx) | hx)
      · exact Or.inl hx
      · subst hx
        exact Or.inr (by simp)
      · exact Or.inr (by simp [hx])
    · rintro (hx | hx)
      · exact Or.inl (Or.inl hx)
      · rcases List.mem_cons.mp hx with hx | hx
        · subst hx
          exact Or.inl (Or.inr rfl)
        · exact Or.inr hx

theorem mem_dedupV6 (l : List Edge) (x : Edge) : x ∈ dedupV6 l ↔ x ∈ l := by
  obtain ⟨_, _, h3⟩ := v6Fold_spec l [] (by simp) (by simp)
  unfold dedupV6
  rw [h3 x]
  simp

theorem nodup_dedupV6 (l : List Edge) : (dedupV6 l).Nodup := by
  obtain ⟨h1, h2, _⟩ := v6Fold_spec l [] (by simp) (by simp)
  exact nodup_map_snd_of_key_det keyEdge keyEdge_injective _ h2 h1

theorem getGroup_touchFwd_same (k : String × String) (t : String)
    (m : List ((String × String) × GroupSets)) (x : String) :
    x ∈ (getGroup (touchFwd k t m) k).fwd ↔ x ∈ (getGroup m k).fwd ∨ x = t := by
  unfold touchFwd
  cases hl : lookupKV m k with
  | some g =>
    simp only [getGroup, hl, lookupKV_dictInsert_self, Option.getD_some]
    exact mem_setAdd x t g.fwd
  | none =>
    simp only [getGroup, hl, Option.getD_none]
    rw [lookupKV_append, hl]
    simp [lookupKV]

theorem getGroup_touchFwd_other (k k' : String × String) (t : String)
    (m : List ((String × String) × GroupSets)) (hne : k' ≠ k) :
    getGroup (touchFwd k t m) k' = getGroup m k' := by
  unfold touchFwd
  cases hl : lookupKV m k with
  | some g =>
    simp only [getGroup, lookupKV_dictInsert_ne k k' _ m hne]
  | none =>
    simp only [getGroup]
    rw [lookupKV_append]
    cases hl' : lookupKV m k' with
    | some g' => simp
    | none =>
      have hkk : ¬ k = k' := fun h => hne h.symm
      simp [lookupKV, hkk]

theorem getGroup_touchRev_fwd (k k' : String × String) (t : String)
    (m : List ((String × String) × GroupSets)) :
    (getGroup (touchRev k t m) k').fwd = (getGroup m k').fwd := by
  unfold touchRev
  cases hl : lookupKV m k with
  | some g =>
    by_cases hne : k' = k
    · subst hne
      simp only [getGroup, hl, lookupKV_dictInsert_self, Option.getD_some]
    · simp only [getGroup, lookupKV_dictInsert_ne k k' _ m hne]
  | none =>
    simp only [getGroup]
    rw [lookupKV_append]
    by_cases hne : k' = k
    · subst hne
      rw [hl]
      simp [lookupKV]
    · cases hl' : lookupKV m k' with
      | some g' => simp
      | none =>
        have hkk : ¬ k = k' := fun h => hne h.symm
        simp [lookupKV, hkk]

theorem nodup_keys_append_single {α β : Type} [DecidableEq α]
    (m : List (α × β)) (k : α) (v : β)
    (h : (m.map Prod.fst).Nodup) (hk : k ∉ m.map Prod.fst) :
    ((m ++ [(k, v)]).map Prod.fst).Nodup := by
  simp only [List.map_append, List.map_cons, List.map_nil]
  apply List.Nodup.append h (List.nodup_singleton k)
  intro a ha hb
  simp only [List.mem_singleton] at hb
  subst hb
  exact hk ha

theorem nodup_keys_touchFwd (k : String × String) (t : String)
    (m : List ((String × String) × GroupSets))
    (h : (m.map Prod.fst).Nodup) :
    ((touchFwd k t m).map Prod.fst).Nodup := by
  unfold touchFwd
  cases hl : lookupKV m k with
  | some g => exact nodup_keys_dictInsert _ _ _ h
  | none =>
    exact nodup_keys_append_single m k _ h ((lookupKV_eq_none_iff m k).mp hl)

theorem nodup_keys_touchRev (k : String × String) (t : String)
    (m : List ((String × String) × GroupSets))
    (h : (m.map Prod.fst).Nodup) :
    ((touchRev k t m).map Prod.fst).Nodup := by
  unfold touchRev
  cases hl : lookupKV m k with
  | some g => exact nodup_keys_dictInsert _ _ _ h
  | none =>
    exact nodup_keys_append_single m k _ h ((lookupKV_eq_none_iff m k).mp hl)

theorem combFold_spec (l : List Edge) : ∀ m (a b t : String),
    ((m.map Prod.fst).Nodup) →
    (((List.foldl combStep m l).map Prod.fst).Nodup
    ∧ (t ∈ (getGroup (List.foldl combStep m l) (a, b)).fwd ↔
        t ∈ (getGroup m (a, b)).fwd ∨ Edge.mk a b t ∈ l)) := by
  induction l with
  | nil =>
    intro m a b t hk
    exact ⟨hk, by simp⟩
  | cons e l ih =>
    intro m a b t hk
    obtain ⟨es, er, et⟩ := e
    simp only [List.foldl_cons]
    have hk1 := nodup_keys_touchFwd (es, er) et m hk
    have hk2 := nodup_keys_touchRev (er, es) et _ hk1
    obtain ⟨ihk, ihm⟩ := ih (combStep m ⟨es, er, et⟩) a b t hk2
    refine ⟨ihk, ?_⟩
    rw [ihm]
    have hrev : (getGroup (combStep m ⟨es, er, et⟩) (a, b)).fwd
        = (getGroup (touchFwd (es, er) et m) (a, b)).fwd :=
      getGroup_touchRev_fwd (er, es) (a, b) et _
    rw [hrev]
    by_cases hab : (a, b) = (es, er)
    · have hae : a = es := congrArg Prod.fst hab
      have hbe : b = er := congrArg Prod.snd hab
      subst hae
      subst hbe
      rw [getGroup_touchFwd_same (a, b) et m t]
      simp only [List.mem_cons, Edge.mk.injEq]
      constructor
      · rintro ((hx | hx) | hx)
        · exact Or.inl hx
        · exact Or.inr (Or.inl (by simp [hx]))
        · exact Or.inr (Or.inr hx)
      · rintro (hx | (⟨_, _, hx⟩ | hx))
        · exact Or.inl (Or.inl hx)
        · exact Or.inl (Or.inr hx)
        · exact Or.inr hx
    · rw [getGroup_touchFwd_other (es, er) (a, b) et m hab]
      simp only [List.mem_cons, Edge.mk.injEq]
      constructor
      · rintro (hx | hx)
        · exact Or.inl hx
        · exact Or.inr (Or.inr hx)
      · rintro (hx | (⟨h1, h2, _⟩ | hx))
        · exact Or.inl hx
        · exact absurd (by rw [h1, h2]) hab
        · exact Or.inr hx

theorem buildCombined_fwd (es : List Edge) (a b t : String) :
    t ∈ (getGroup (buildCombined es) (a, b)).fwd ↔ Edge.mk a b t ∈ es := by
  obtain ⟨_, h⟩ := combFold_spec es [] a b t (by simp)
  unfold buildCombined
  rw [h]
  simp [getGroup, lookupKV]

theorem buildCombined_nodup_keys (es : List Edge) :
    ((buildCombined es).map Prod.fst).Nodup :=
  (combFold_spec es [] "" "" "" (by simp)).1

theorem emitGroup_fixes_pair (k : String × String) (g : GroupSets) (e : Edge)
    (he : e ∈ emitGroup k g) : e.seed = k.1 ∧ e.rel = k.2 := by
  unfold emitGroup at he
  rcases List.mem_append.mp he with he | he
  · cases hsel : selectGroup g.fwd with
    | none =>
      rw [hsel] at he
      simp at he
    | some t =>
      rw [hsel] at he
      simp only [List.mem_singleton] at he
      subst he
      exact ⟨rfl, rfl⟩
  · obtain ⟨t, _, rfl⟩ := List.mem_map.mp he
    exact ⟨rfl, rfl⟩

theorem emitGroup_default (k : String × String) : emitGroup k ⟨[], []⟩ = [] := by
  simp [emitGroup, selectGroup, othersOf]

theorem filter_emitAll (a b : String) (m : List ((String × String) × GroupSets))
    (hnd : (m.map Prod.fst).Nodup) :
    (emitAll m).filter (isFamilyFor a b)
      = (emitGroup (a, b) (getGroup m (a, b))).filter (isFamilyFor a b) := by
  induction m with
  | nil => simp [emitAll, getGroup, lookupKV, emitGroup_default]
  | cons p m ih =>
    obtain ⟨k, g⟩ := p
    simp only [List.map_cons, List.nodup_cons] at hnd
    simp only [emitAll, List.filter_append]
    by_cases hk : k = (a, b)
    · subst hk
      have hnone : lookupKV m (a, b) = none := (lookupKV_eq_none_iff m (a, b)).mpr hnd.1
      have hrest : getGroup m (a, b) = ⟨[], []⟩ := by simp [getGroup, hnone]
      rw [ih hnd.2, hrest, emitGroup_default]
      simp [getGroup, lookupKV]
    · have h1 : (emitGroup k g).filter (isFamilyFor a b) = [] := by
        rw [List.filter_eq_nil]
        intro e he
        have hf := emitGroup_fixes_pair k g e he
        have hne : ¬(k.1 = a ∧ k.2 = b) := by
          rintro ⟨h1, h2⟩
          exact hk (Prod.ext h1 h2)
        simp only [isFamilyFor, hf.1, hf.2, Bool.and_eq_true, beq_iff_eq,
          decide_eq_true_eq, not_and]
        intro h1 h2
        exact hne h1
      have hgg : getGroup ((k, g) :: m) (a, b) = getGroup m (a, b) := by
        simp [getGroup, lookupKV, hk]
      rw [h1, hgg, ih hnd.2]
      simp

theorem selectGroup_father_mother (types : List String)
    (hf : "is father of" ∈ types) (hm : "is mother of" ∈ types) :
    selectGroup types = some "is parent of" := by
  unfold selectGroup
  have hfp : "is father of" ∈ types.filter (fun t => decide (t ∈ parentRels)) := by
    rw [List.mem_filter]
    exact ⟨hf, by decide⟩
  have hmp : "is mother of" ∈ types.filter (fun t => decide (t ∈ parentRels)) := by
    rw [List.mem_filter]
    exact ⟨hm, by decide⟩
  have hne : types.filter (fun t => decide (t ∈ parentRels)) ≠ [] :=
    List.ne_nil_of_mem hfp
  simp [hne, hfp, hmp]

theorem othersOf_not_family (types : List String) (t : String)
    (ht : t ∈ othersOf types) : t ∉ familyRels := by
  unfold othersOf at ht
  rw [List.mem_filter] at ht
  obtain ⟨_, hcond⟩ := ht
  simp only [Bool.and_eq_true, decide_eq_true_eq] at hcond
  obtain ⟨hnp, hnc⟩ := hcond
  intro hmem
  simp only [familyRels, List.mem_cons, List.not_mem_nil, or_false] at hmem
  rcases hmem with h | h | h | h
  · exact hnp (by simp [parentRels, h])
  · exact hnp (by simp [parentRels, h])
  · exact hnp (by simp [parentRels, h])
  · exact hnc (by simp [childRel, h])

theorem filter_emitGroup_parent (a b : String) (g : GroupSets)
    (hf : "is father of" ∈ g.fwd) (hm : "is mother of" ∈ g.fwd) :
    (emitGroup (a, b) g).filter (isFamilyFor a b)
      = [Edge.mk a b "is parent of"] := by
  unfold emitGroup
  rw [selectGroup_father_mother g.fwd hf hm, List.filter_append]
  have h1 : ([Edge.mk a b "is parent of"] : List Edge).filter (isFamilyFor a b)
      = [Edge.mk a b "is parent of"] := by
    simp [isFamilyFor, familyRels]
  have h2 : ((othersOf g.fwd).map (fun t => Edge.mk a b t)).filter (isFamilyFor a b)
      = [] := by
    rw [List.filter_eq_nil]
    intro e he
    obtain ⟨t, hto, rfl⟩ := List.mem_map.mp he
    have hnf := othersOf_not_family g.fwd t hto
    simp [isFamilyFor, hnf]
  rw [h1, h2, List.append_nil]

/-- Claim C1: for every accumulated edge list, after the consolidation pass
grouped by ordered `(source, destination)` pair, any pair whose forward
relation types include both `is father of` and `is mother of` yields
exactly one consolidated edge from the parentage family for that pair, and
its relation type is `is parent of`. -/
theorem consolidated_parent_unique (es : List Edge) (a b : String)
    (hf : Edge.mk a b "is father of" ∈ es) (hm : Edge.mk a b "is mother of" ∈ es) :
    (consolidate es).filter (isFamilyFor a b) = [Edge.mk a b "is parent of"] := by
  have hfg : "is father of" ∈ (getGroup (buildCombined es) (a, b)).fwd :=
    (buildCombined_fwd es a b _).mpr hf
  have hmg : "is mother of" ∈ (getGroup (buildCombined es) (a, b)).fwd :=
    (buildCombined_fwd es a b _).mpr hm
  have hraw : (emitAll (buildCombined es)).filter (isFamilyFor a b)
      = [Edge.mk a b "is parent of"] := by
    rw [filter_emitAll a b _ (buildCombined_nodup_keys es)]
    exact filter_emitGroup_parent a b _ hfg hmg
  unfold consolidate
  apply nodup_mem_singleton_eq
  · exact (nodup_dedupV6 _).filter _
  · intro x
    constructor
    · intro hx
      rw [List.mem_filter] at hx
      have hxraw : x ∈ emitAll (buildCombined es) := (mem_dedupV6 _ x).mp hx.1
      have hmemf : x ∈ (emitAll (buildCombined es)).filter (isFamilyFor a b) :=
        List.mem_filter.mpr ⟨hxraw, hx.2⟩
      rw [hraw] at hmemf
      simpa using hmemf
    · intro hx
      subst hx
      have hmemf : Edge.mk a b "is parent of"
          ∈ (emitAll (buildCombined es)).filter (isFamilyFor a b) := by
        rw [hraw]
        simp
      rw [List.mem_filter] at hmemf
      exact List.mem_filter.mpr ⟨(mem_dedupV6 _ _).mpr hmemf.1, hmemf.2⟩

/-- Witness for C1 at a concrete edge list holding both a father and a
mother fact for the same ordered pair. -/
theorem consolidated_parent_unique_witness :
    (consolidate [Edge.mk "A" "B" "is father of",
        Edge.mk "A" "B" "is mother of"]).filter (isFamilyFor "A" "B")
      = [Edge.mk "A" "B" "is parent of"] :=
  consolidated_parent_unique
    [Edge.mk "A" "B" "is father of", Edge.mk "A" "B" "is mother of"]
    "A" "B" (by decide) (by decide)

end UHNW
